import Mathlib

/-!
Verification of the `cli-start` setup scripts (`claude-code-setup.py` and
`codex-setup.py`).  Python strings are modelled as `List Char`; the pure
text-transformation core of every function named in the claims is embedded
directly from the source.  File I/O is modelled by passing the read result
and the success of the write explicitly.
-/

/-! ## Basic Python string operations on `List Char` -/

/-- Whitespace characters stripped by Python's `str.strip` / `rstrip` /
`lstrip` (ASCII range). -/
def isPySpace (c : Char) : Bool :=
  c = ' ' || c = '\t' || c = '\n' || c = '\r' || c = '\x0b' || c = '\x0c'

/-- Python `s.lstrip()`. -/
def lstrip (s : List Char) : List Char := s.dropWhile isPySpace

/-- Python `s.rstrip()`. -/
def rstrip (s : List Char) : List Char := (s.reverse.dropWhile isPySpace).reverse

/-- Index of the first occurrence of `pat` in `s` (Python `s.find(pat)`,
restricted to the found case). -/
def findSub (pat : List Char) : List Char → Option Nat
  | [] => if pat.isEmpty then some 0 else none
  | c :: rest =>
    if pat.isPrefixOf (c :: rest) then some 0
    else (findSub pat rest).map (· + 1)

/-- Python `pat in s` (substring containment). -/
def containsSub (pat s : List Char) : Bool := (findSub pat s).isSome

/-- Python `s.split(pat, 1)` when `pat` occurs in `s`: the part before the
first occurrence and the part after it. -/
def splitOnce (s pat : List Char) : Option (List Char × List Char) :=
  (findSub pat s).map (fun i => (s.take i, s.drop (i + pat.length)))

/-- Python `"\n".join(ls)`. -/
def joinNL : List (List Char) → List Char
  | [] => []
  | [l] => l
  | l :: m :: ls => l ++ '\n' :: joinNL (m :: ls)

/-- Each line followed by a newline; `joinNL (ls ++ [z]) = linesBody ls ++ z`. -/
def linesBody : List (List Char) → List Char
  | [] => []
  | l :: ls => l ++ '\n' :: linesBody ls

/-- Number of positions of `s` at which `pat` occurs. -/
def countOcc (pat : List Char) : List Char → Nat
  | [] => 0
  | c :: rest => (if pat.isPrefixOf (c :: rest) then 1 else 0) + countOcc pat rest

/-- Python `s.replace(c, rep)` for a single-character pattern `c`. -/
def pyReplace1 (c : Char) (rep : List Char) : List Char → List Char
  | [] => []
  | a :: s => (if a = c then rep else [a]) ++ pyReplace1 c rep s

/-! ## claude-code-setup.py: managed env block -/

def MANAGED_ENV_BLOCK_START : List Char :=
  "# >>> Claude Code env (managed by claude-code-setup.py) >>>".data

def MANAGED_ENV_BLOCK_END : List Char :=
  "# <<< Claude Code env <<<".data

/-- `"\n".join([MANAGED_ENV_BLOCK_START, *lines, MANAGED_ENV_BLOCK_END]) + "\n"`
from `write_managed_env_block`. -/
def blockText (lines : List (List Char)) : List Char :=
  joinNL (MANAGED_ENV_BLOCK_START :: (lines ++ [MANAGED_ENV_BLOCK_END])) ++ ['\n']

/-- The pure content transformation of `write_managed_env_block`
(claude-code-setup.py lines 398-405).  `none` models the uncaught
`ValueError` from `rest.split(MANAGED_ENV_BLOCK_END, 1)` when the end
marker occurs only before the first start marker. -/
def updateContent (existing : List Char) (lines : List (List Char)) : Option (List Char) :=
  if containsSub MANAGED_ENV_BLOCK_START existing
      && containsSub MANAGED_ENV_BLOCK_END existing then
    match splitOnce existing MANAGED_ENV_BLOCK_START with
    | some (pre, rest) =>
      match splitOnce rest MANAGED_ENV_BLOCK_END with
      | some (_, suf) =>
        some (rstrip pre ++ '\n' :: '\n' :: (blockText lines ++ lstrip suf))
      | none => none
    | none => none
  else
    some (rstrip existing ++ '\n' :: '\n' :: blockText lines)

/-- Outcome of one call to `write_managed_env_block`: either the function
returned (`ok` is the returned Bool, `written` the content written on
success) or an exception escaped. -/
inductive RunResult where
  | returned (ok : Bool) (written : Option (List Char))
  | raised
deriving DecidableEq

/-- The `existing` value computed at claude-code-setup.py line 394: a read
error (`Except.error`) is swallowed and treated as an empty file. -/
def effectiveExisting (fileExists : Bool) (readRes : Except Unit (List Char)) : List Char :=
  if fileExists then (match readRes with | .ok c => c | .error _ => []) else []

/-- `write_managed_env_block` with I/O modelled explicitly: `fileExists` and
`readRes` describe the read of the target, `writeOk` whether the final
`write_text` succeeds. -/
def write_managed_env_block (fileExists : Bool) (readRes : Except Unit (List Char))
    (writeOk : Bool) (lines : List (List Char)) : RunResult :=
  match updateContent (effectiveExisting fileExists readRes) lines with
  | none => .raised
  | some nc => if writeOk then .returned true (some nc) else .returned false none

/-- The manual-fallback lines printed by `configure_environment_variables`
(lines 519-522) when `write_managed_env_block` reports failure: each
rendered line, two-space indented. -/
def configure_env_fallback_lines (ok : Bool) (lines : List (List Char)) : List (List Char) :=
  if ok then [] else lines.map (fun l => ' ' :: ' ' :: l)

/-! ## Shell quoting (claude-code-setup.py lines 376-388) -/

/-- `sh_single_quote`: `"'" + value.replace("'", "'\"'\"'") + "'"`. -/
def sh_single_quote (v : List Char) : List Char :=
  '\'' :: (pyReplace1 '\'' ("'\"'\"'".data) v ++ ['\''])

/-- `ps_single_quote`: `"'" + value.replace("'", "''") + "'"`. -/
def ps_single_quote (v : List Char) : List Char :=
  '\'' :: (pyReplace1 '\'' ("''".data) v ++ ['\''])

/-- Lexing mode of the POSIX-shell word lexer: outside quotes, inside
single quotes, inside double quotes. -/
inductive ShMode where
  | top
  | single
  | double
deriving DecidableEq

/-- Characters that a POSIX shell treats literally outside of quotes. -/
def shSafeChar (c : Char) : Bool :=
  !(c = '\'' || c = '"' || c = '$' || c.toNat = 92 || c.toNat = 96 ||
    c = ' ' || c = '\t' || c = '\n' || c = '|' || c = '&' || c = ';' ||
    c = '(' || c = ')' || c = '<' || c = '>' || c = '*' || c = '?' ||
    c = '[' || c = ']' || c = '~' || c = '#' || c = '!')

/-- Characters that keep special meaning inside POSIX double quotes. -/
def shDoubleSpecial (c : Char) : Bool :=
  c = '$' || c.toNat = 92 || c.toNat = 96

/-- A model of how a POSIX shell (bash, zsh, or an sh-style `.profile`
shell) reads one word back: `some v` means the word lexes as the literal
string `v` with no metacharacter interpreted.  Inside POSIX single quotes
every character except the closing quote is literal.  fish is modelled
separately by `fishLexWord`, because fish single quotes treat a backslash
before a backslash or a quote as an escape sequence. -/
def shLexWord : ShMode → List Char → Option (List Char)
  | .top, [] => some []
  | .single, [] => none
  | .double, [] => none
  | .top, c :: rest =>
    if c = '\'' then shLexWord .single rest
    else if c = '"' then shLexWord .double rest
    else if shSafeChar c then (shLexWord .top rest).map (fun t => c :: t)
    else none
  | .single, c :: rest =>
    if c = '\'' then shLexWord .top rest
    else (shLexWord .single rest).map (fun t => c :: t)
  | .double, c :: rest =>
    if c = '"' then shLexWord .top rest
    else if shDoubleSpecial c then none
    else (shLexWord .double rest).map (fun t => c :: t)

/-- A model of how PowerShell reads a single-quoted literal back: inside
`'...'` a doubled `''` is a literal quote and a lone `'` closes the
string. -/
def psLexWord : Bool → List Char → Option (List Char)
  | false, [] => some []
  | false, c :: rest =>
    if c = '\'' then psLexWord true rest else none
  | true, [] => none
  | true, c :: rest =>
    if c = '\'' then
      match rest with
      | d :: rest2 =>
        if d = '\'' then (psLexWord true rest2).map (fun t => '\'' :: t)
        else psLexWord false (d :: rest2)
      | [] => psLexWord false []
    else (psLexWord true rest).map (fun t => c :: t)

/-- A model of how fish reads one word back.  Unlike a POSIX shell, fish
gives the backslash a meaning inside single quotes: `\\` is a literal
backslash and `\'` a literal quote, while a backslash before any other
character is itself literal; inside double quotes `\"`, `\\` and `\$` are
escapes and `$` starts an expansion. -/
def fishLexWord : ShMode → List Char → Option (List Char)
  | .top, [] => some []
  | .single, [] => none
  | .double, [] => none
  | .top, c :: rest =>
    if c = '\'' then fishLexWord .single rest
    else if c = '"' then fishLexWord .double rest
    else if shSafeChar c then (fishLexWord .top rest).map (fun t => c :: t)
    else none
  | .single, c :: rest =>
    if c = '\\' then
      match rest with
      | [] => none
      | d :: rest2 =>
        if d = '\\' then (fishLexWord .single rest2).map (fun t => '\\' :: t)
        else if d = '\'' then (fishLexWord .single rest2).map (fun t => '\'' :: t)
        else (fishLexWord .single rest2).map (fun t => '\\' :: d :: t)
    else if c = '\'' then fishLexWord .top rest
    else (fishLexWord .single rest).map (fun t => c :: t)
  | .double, c :: rest =>
    if c = '\\' then
      match rest with
      | [] => none
      | d :: rest2 =>
        if d = '\\' then (fishLexWord .double rest2).map (fun t => '\\' :: t)
        else if d = '"' then (fishLexWord .double rest2).map (fun t => '"' :: t)
        else if d = '$' then (fishLexWord .double rest2).map (fun t => '$' :: t)
        else (fishLexWord .double rest2).map (fun t => '\\' :: d :: t)
    else if c = '"' then fishLexWord .top rest
    else if c = '$' then none
    else (fishLexWord .double rest).map (fun t => c :: t)

/-! ## claude-code-setup.py: environment variable rendering
(`configure_environment_variables`, lines 437-511, POSIX platform) -/

/-- The ordered `variables` dict of `configure_environment_variables`. -/
def claudeVariables (base_url api_key : List Char) : List (List Char × List Char) :=
  [("CLAUDE_CONFIG_DIR".data, "$HOME/.claude".data),
   ("ANTHROPIC_BASE_URL".data, base_url),
   ("ANTHROPIC_AUTH_TOKEN".data, api_key),
   ("API_TIMEOUT_MS".data, "3000000".data),
   ("CLAUDE_CODE_DISABLE_NONESSENTIAL_TRAFFIC".data, "1".data)]

/-- The shell dialect selected by `choose_environment`. -/
inductive Dialect where
  | bash
  | zsh
  | fish
  | powershell
  | profile
deriving DecidableEq

/-- The assignment lines rendered by `configure_environment_variables`
for the chosen dialect (lines 460-466, 496-511). -/
def renderEnvLines (d : Dialect) (base_url api_key : List Char) : List (List Char) :=
  let vars := claudeVariables base_url api_key
  let others := vars.filter (fun p => !(p.1 == "CLAUDE_CONFIG_DIR".data))
  match d with
  | .powershell =>
    "$env:CLAUDE_CONFIG_DIR = (Join-Path $HOME \".claude\")".data ::
      others.map (fun p => "$env:".data ++ p.1 ++ " = ".data ++ ps_single_quote p.2)
  | .fish =>
    "set -gx CLAUDE_CONFIG_DIR \"$HOME/.claude\"".data ::
      others.map (fun p => "set -gx ".data ++ p.1 ++ ' ' :: sh_single_quote p.2)
  | _ =>
    "export CLAUDE_CONFIG_DIR=\"$HOME/.claude\"".data ::
      others.map (fun p => "export ".data ++ p.1 ++ '=' :: sh_single_quote p.2)

/-! ## `get_api_config` in both scripts -/

/-- `confirm` (both scripts): lowercase the cleaned response; empty means
the default; otherwise accept exactly `y` / `yes`. -/
def confirm_answer (response : List Char) (dflt : Bool) : Bool :=
  let r := response.map Char.toLower
  if r.isEmpty then dflt else (r == "y".data || r == "yes".data)

/-- Result of `get_api_config`: whether the format-confirmation prompt was
shown, and either the exit code (`sys.exit`) or the returned pair. -/
structure ApiConfigResult where
  promptedConfirm : Bool
  outcome : Except Nat (List Char × List Char)

/-- `get_api_config` of claude-code-setup.py (lines 160-184), as a function
of the cleaned prompt inputs. -/
def claude_get_api_config (baseInput keyInput confirmAns : List Char) : ApiConfigResult :=
  let base_url := if baseInput.isEmpty then "https://api.anthropic.com".data else baseInput
  if keyInput.isEmpty then ⟨false, .error 1⟩
  else if ("sk-".data).isPrefixOf keyInput then ⟨false, .ok (base_url, keyInput)⟩
  else if confirm_answer confirmAns false then ⟨true, .ok (base_url, keyInput)⟩
  else ⟨true, .error 1⟩

/-- Python `base_url.rstrip('/')` (codex-setup.py line 160). -/
def rstripSlashes (u : List Char) : List Char :=
  (u.reverse.dropWhile (fun c => c = '/')).reverse

/-- Base-URL normalization of codex-setup.py lines 160-162: strip trailing
slashes, then append `/v1` unless already present. -/
def normalize_base_url (u : List Char) : List Char :=
  let u2 := rstripSlashes u
  if ("/v1".data).isSuffixOf u2 then u2 else u2 ++ "/v1".data

/-- `get_api_config` of codex-setup.py (lines 151-180). -/
def codex_get_api_config (baseInput keyInput confirmAns : List Char) : ApiConfigResult :=
  let base_url := if baseInput.isEmpty then "https://api.openai.com/v1".data
                  else normalize_base_url baseInput
  if keyInput.isEmpty then ⟨false, .error 1⟩
  else if ("sk-".data).isPrefixOf keyInput then ⟨false, .ok (base_url, keyInput)⟩
  else if confirm_answer confirmAns false then ⟨true, .ok (base_url, keyInput)⟩
  else ⟨true, .error 1⟩

/-! ## codex-setup.py: TOML escaping and config document -/

/-- `escape_toml_string`: `s.replace('\\', '\\\\').replace('"', '\\"')`. -/
def escape_toml_string (s : List Char) : List Char :=
  pyReplace1 '"' ("\\\"".data) (pyReplace1 '\\' ("\\\\".data) s)

/-- The fixed text of `config.toml` before the embedded base URL
(codex-setup.py lines 197-206). -/
def codexTomlHead : List Char :=
  ("model_provider = \"custom\"\nmodel = \"gpt-5.2-codex\"\n" ++
   "model_reasoning_effort = \"high\"\nnetwork_access = \"enabled\"\n" ++
   "disable_response_storage = true\nmodel_verbosity = \"high\"\n\n" ++
   "[model_providers.custom]\nname = \"custom\"\nbase_url = ").data

/-- The fixed text of `config.toml` after the embedded base URL
(codex-setup.py lines 206-209). -/
def codexTomlTail : List Char :=
  "\nwire_api = \"responses\"\nrequires_openai_auth = true\n".data

/-- The `config.toml` document written by `write_config_files`. -/
def codex_config_toml (base_url : List Char) : List Char :=
  codexTomlHead ++ '"' :: (escape_toml_string base_url ++ '"' :: codexTomlTail)

/-- The Context7 section appended by `install_mcp_servers`
(codex-setup.py lines 243-249). -/
def context7_mcp_toml (key : List Char) : List Char :=
  ("\n\n[mcp_servers.context7]\ntype = \"stdio\"\ncommand = \"npx\"\n" ++
   "args = [\"-y\", \"@upstash/context7-mcp\", \"--api-key\", ").data ++
  '"' :: (escape_toml_string key ++
    '"' :: "]\ntool_timeout_sec = 60.0".data)

/-- The Cunzhi section appended by `install_mcp_servers`
(codex-setup.py lines 264-269). -/
def cunzhi_mcp_toml (path : List Char) : List Char :=
  "\n\n[mcp_servers.cunzhi]\ntype = \"stdio\"\ncommand = ".data ++
  '"' :: (escape_toml_string path ++
    '"' :: "\ntool_timeout_sec = 600.0".data)

/-- Unescaping of a TOML basic-string body: the inverse reading of the
backslash/quote escapes that `escape_toml_string` is meant to produce.
`none` means the body is not a well-formed sequence of literal characters
and `\\` / `\"` escapes. -/
def tomlUnescape : List Char → Option (List Char)
  | [] => some []
  | c :: rest =>
    if c = '\\' then
      match rest with
      | [] => none
      | d :: rest2 =>
        if d = '\\' then (tomlUnescape rest2).map (fun t => '\\' :: t)
        else if d = '"' then (tomlUnescape rest2).map (fun t => '"' :: t)
        else none
    else if c = '"' then none
    else (tomlUnescape rest).map (fun t => c :: t)

/-- Single-pass specification of `escape_toml_string`: each backslash
becomes `\\`, each double quote becomes `\"`, all other characters pass
through. -/
def escapeTomlSpec : List Char → List Char
  | [] => []
  | c :: v =>
    (if c = '\\' then "\\\\".data else if c = '"' then "\\\"".data else [c]) ++
      escapeTomlSpec v

/-- Initial content already holding two managed blocks (for claim C1). -/
def c1CexInitial : List Char :=
  MANAGED_ENV_BLOCK_START ++ '\n' :: (MANAGED_ENV_BLOCK_END ++ '\n' ::
    (MANAGED_ENV_BLOCK_START ++ '\n' :: MANAGED_ENV_BLOCK_END))

/-- Content with a block, a trailing space before the start marker and a
leading space after the end marker (for claim C2). -/
def c2CexContent : List Char :=
  "A ".data ++ (MANAGED_ENV_BLOCK_START ++ '\n' ::
    (MANAGED_ENV_BLOCK_END ++ " B".data))

/-- File content in which both markers occur but the end marker only
precedes the first start marker (for claim C4). -/
def c4BadContent : List Char :=
  MANAGED_ENV_BLOCK_END ++ '\n' :: MANAGED_ENV_BLOCK_START

/-! ## Lemmas about prefixes, occurrences and searching -/

theorem isPrefixOf_append_self (m y : List Char) : m.isPrefixOf (m ++ y) = true := by
  induction m with
  | nil => simp [List.isPrefixOf]
  | cons a as ih => simp [List.isPrefixOf, ih]

theorem isPrefixOf_extend {m x : List Char} (y : List Char)
    (h : m.isPrefixOf x = true) : m.isPrefixOf (x ++ y) = true := by
  induction m generalizing x with
  | nil => simp [List.isPrefixOf]
  | cons a as ih =>
    cases x with
    | nil => simp [List.isPrefixOf] at h
    | cons b bs =>
      simp only [List.isPrefixOf, Bool.and_eq_true, beq_iff_eq] at h
      simp only [List.cons_append, List.isPrefixOf, Bool.and_eq_true, beq_iff_eq]
      exact ⟨h.1, ih h.2⟩

theorem isPrefixOf_nil_false {m : List Char} (hne : m ≠ []) :
    m.isPrefixOf ([] : List Char) = false := by
  cases m with
  | nil => exact absurd rfl hne
  | cons a as => rfl

/-- A pattern without a newline cannot reach past a newline: being a prefix
of `x ++ '\n' :: y` is the same as being a prefix of `x`. -/
theorem isPrefixOf_append_nl {m : List Char} (hnl : '\n' ∉ m) (x y : List Char) :
    m.isPrefixOf (x ++ '\n' :: y) = m.isPrefixOf x := by
  induction m generalizing x with
  | nil => simp [List.isPrefixOf]
  | cons a as ih =>
    cases x with
    | nil =>
      have ha : (a == '\n') = false := by
        refine beq_eq_false_iff_ne.mpr fun h => hnl ?_
        rw [← h]; exact List.mem_cons_self a as
      simp [List.isPrefixOf, ha, isPrefixOf_nil_false]
    | cons b bs =>
      have has : '\n' ∉ as := fun h => hnl (List.mem_cons_of_mem a h)
      simp only [List.cons_append, List.isPrefixOf, List.append_eq]
      rw [ih has]

/-- Occurrences split at a newline when the pattern has no newline. -/
theorem countOcc_append_nl {m : List Char} (hnl : '\n' ∉ m) (hne : m ≠ [])
    (x y : List Char) :
    countOcc m (x ++ '\n' :: y) = countOcc m x + countOcc m y := by
  induction x with
  | nil =>
    have h1 := isPrefixOf_append_nl hnl [] y
    rw [List.nil_append] at h1
    rw [isPrefixOf_nil_false hne] at h1
    simp [countOcc, h1]
  | cons c x' ih =>
    have h2 := isPrefixOf_append_nl hnl (c :: x') y
    simp only [List.cons_append] at h2 ⊢
    simp only [countOcc, h2, ih]
    omega

theorem countOcc_cons_nl {m : List Char} (hnl : '\n' ∉ m) (hne : m ≠ [])
    (y : List Char) : countOcc m ('\n' :: y) = countOcc m y := by
  have h := countOcc_append_nl hnl hne [] y
  simpa [countOcc] using h

theorem countOcc_le_append (m p q : List Char) :
    countOcc m p ≤ countOcc m (p ++ q) := by
  induction p with
  | nil => simp [countOcc]
  | cons c p' ih =>
    simp only [List.cons_append, countOcc, List.append_eq]
    have hif : (if m.isPrefixOf (c :: p') then 1 else 0) ≤
        (if m.isPrefixOf (c :: (p' ++ q)) then (1 : Nat) else 0) := by
      by_cases h : m.isPrefixOf (c :: p') = true
      · have h2 := isPrefixOf_extend q h
        rw [List.cons_append] at h2
        simp [h, h2]
      · simp [h]
    omega

theorem countOcc_le_append_left (m x q : List Char) :
    countOcc m q ≤ countOcc m (x ++ q) := by
  induction x with
  | nil => simp
  | cons c x' ih =>
    simp only [List.cons_append, countOcc, List.append_eq]
    omega

theorem isEmpty_false_of_ne {m : List Char} (h : m ≠ []) : m.isEmpty = false := by
  cases m with
  | nil => exact absurd rfl h
  | cons a as => rfl

theorem containsSub_eq_false_iff {m : List Char} (hne : m ≠ []) (s : List Char) :
    containsSub m s = false ↔ countOcc m s = 0 := by
  induction s with
  | nil => simp [containsSub, findSub, countOcc, isEmpty_false_of_ne hne]
  | cons c rest ih =>
    by_cases h : m.isPrefixOf (c :: rest) = true
    · simp [containsSub, findSub, countOcc, h]
    · rw [Bool.not_eq_true] at h
      simp only [containsSub, findSub, h, Bool.false_eq_true, if_false, countOcc]
      have hmap : (Option.map (fun x => x + 1) (findSub m rest)).isSome =
          (findSub m rest).isSome := by
        cases findSub m rest <;> rfl
      rw [hmap]
      simp only [containsSub] at ih
      simp [ih]

theorem countOcc_pos_of_findSub {m : List Char} (hne : m ≠ []) :
    ∀ {s : List Char} {i : Nat}, findSub m s = some i → 0 < countOcc m s := by
  intro s
  induction s with
  | nil =>
    intro i h
    rw [findSub, isEmpty_false_of_ne hne] at h
    simp at h
  | cons c rest ih =>
    intro i h
    by_cases hp : m.isPrefixOf (c :: rest) = true
    · simp [countOcc, hp]
    · rw [Bool.not_eq_true] at hp
      rw [findSub, hp] at h
      simp only [Bool.false_eq_true, if_false, Option.map_eq_some'] at h
      obtain ⟨j, hj, _⟩ := h
      have := ih hj
      simp only [countOcc]
      omega

theorem containsSub_eq_true_of_pos {m s : List Char} (hne : m ≠ [])
    (h : 0 < countOcc m s) : containsSub m s = true := by
  cases hcs : containsSub m s
  · rw [(containsSub_eq_false_iff hne s).mp hcs] at h
    omega
  · rfl

theorem containsSub_append_left {m r : List Char} (hne : m ≠ []) (x : List Char)
    (h : containsSub m r = true) : containsSub m (x ++ r) = true := by
  rcases hf : findSub m r with _ | i
  · simp only [containsSub, hf, Option.isSome_none] at h
    cases h
  · have h1 := countOcc_pos_of_findSub hne hf
    have h2 := countOcc_le_append_left m x r
    exact containsSub_eq_true_of_pos hne (by omega)

theorem findSub_append_self (m y : List Char) : findSub m (m ++ y) = some 0 := by
  cases m with
  | nil =>
    cases y with
    | nil => rfl
    | cons c r => simp [findSub, List.isPrefixOf]
  | cons a as =>
    have h := isPrefixOf_append_self (a :: as) y
    rw [List.cons_append] at h
    rw [List.cons_append, findSub, h]
    simp

theorem findSub_append_nl {m : List Char} (hnl : '\n' ∉ m) (hne : m ≠ [])
    (x z : List Char) (hx : countOcc m x = 0) :
    findSub m (x ++ '\n' :: z) = (findSub m z).map (· + (x.length + 1)) := by
  induction x with
  | nil =>
    have h0 : m.isPrefixOf ('\n' :: z) = false := by
      have h := isPrefixOf_append_nl hnl [] z
      rw [List.nil_append, isPrefixOf_nil_false hne] at h
      exact h
    rw [List.nil_append, findSub, h0]
    simp only [Bool.false_eq_true, if_false, List.length_nil, Nat.zero_add]
  | cons c x' ih =>
    have hsplit : (if m.isPrefixOf (c :: x') then 1 else 0) + countOcc m x' = 0 := by
      simpa [countOcc] using hx
    have hc : m.isPrefixOf (c :: x') = false := by
      by_cases h : m.isPrefixOf (c :: x') = true
      · rw [h] at hsplit; simp at hsplit
      · exact Bool.not_eq_true _ ▸ h
    have hx' : countOcc m x' = 0 := by
      rw [hc] at hsplit; simpa using hsplit
    have h2 : m.isPrefixOf (c :: (x' ++ '\n' :: z)) = false := by
      have h := isPrefixOf_append_nl hnl (c :: x') z
      rw [List.cons_append] at h
      rw [h, hc]
    rw [List.cons_append, findSub, h2]
    simp only [Bool.false_eq_true, if_false]
    rw [ih hx']
    cases findSub m z with
    | none => rfl
    | some j =>
      simp only [Option.map_some', Option.map_map]
      simp [Function.comp, List.length_cons]
      omega

theorem splitOnce_after_nl {m : List Char} (hnl : '\n' ∉ m) (hne : m ≠ [])
    (x y : List Char) (hx : countOcc m x = 0) :
    splitOnce (x ++ '\n' :: (m ++ y)) m = some (x ++ ['\n'], y) := by
  have hf : findSub m (x ++ '\n' :: (m ++ y)) = some (x.length + 1) := by
    rw [findSub_append_nl hnl hne x _ hx, findSub_append_self]
    simp
  have hshape : x ++ '\n' :: (m ++ y) = ((x ++ ['\n']) ++ m) ++ y := by simp
  have htake : (x ++ '\n' :: (m ++ y)).take (x.length + 1) = x ++ ['\n'] := by
    rw [hshape, List.append_assoc (x ++ ['\n'])]
    exact List.take_left' (by simp)
  have hdrop : (x ++ '\n' :: (m ++ y)).drop (x.length + 1 + m.length) = y := by
    rw [hshape]
    exact List.drop_left' (by simp; omega)
  simp only [splitOnce, hf, Option.map_some']
  rw [htake, hdrop]

theorem countOcc_linesBody {m : List Char} (hnl : '\n' ∉ m) (hne : m ≠ []) :
    ∀ {ls : List (List Char)}, (∀ l ∈ ls, countOcc m l = 0) → ∀ (z : List Char),
      countOcc m (linesBody ls ++ z) = countOcc m z := by
  intro ls
  induction ls with
  | nil => intro _ z; simp [linesBody]
  | cons l ls' ih =>
    intro hl z
    have hshape : linesBody (l :: ls') ++ z = l ++ '\n' :: (linesBody ls' ++ z) := by
      simp [linesBody]
    rw [hshape, countOcc_append_nl hnl hne, hl l (List.mem_cons_self l ls'),
      ih (fun a ha => hl a (List.mem_cons_of_mem l ha)) z]
    omega

theorem findSub_linesBody {m : List Char} (hnl : '\n' ∉ m) (hne : m ≠ []) :
    ∀ {ls : List (List Char)}, (∀ l ∈ ls, countOcc m l = 0) → ∀ (z : List Char),
      findSub m (linesBody ls ++ z) = (findSub m z).map (· + (linesBody ls).length) := by
  intro ls
  induction ls with
  | nil =>
    intro _ z
    simp only [linesBody, List.nil_append, List.length_nil]
    cases findSub m z <;> simp
  | cons l ls' ih =>
    intro hl z
    have hshape : linesBody (l :: ls') ++ z = l ++ '\n' :: (linesBody ls' ++ z) := by
      simp [linesBody]
    rw [hshape, findSub_append_nl hnl hne l _ (hl l (List.mem_cons_self l ls')),
      ih (fun a ha => hl a (List.mem_cons_of_mem l ha)) z]
    cases findSub m z with
    | none => rfl
    | some j =>
      simp only [Option.map_some', Option.map_map]
      simp [Function.comp, linesBody]
      omega

theorem isPrefixOf_iff_append {m z : List Char} :
    m.isPrefixOf z = true ↔ ∃ t, z = m ++ t := by
  constructor
  · intro h
    induction m generalizing z with
    | nil => exact ⟨z, rfl⟩
    | cons a as ih =>
      cases z with
      | nil => simp [List.isPrefixOf] at h
      | cons b bs =>
        simp only [List.isPrefixOf, Bool.and_eq_true, beq_iff_eq] at h
        obtain ⟨t, ht⟩ := ih h.2
        exact ⟨t, by rw [List.cons_append, ← h.1, ht]⟩
  · rintro ⟨t, rfl⟩
    exact isPrefixOf_append_self m t

theorem findSub_isPrefixOf {m : List Char} :
    ∀ {s : List Char} {i : Nat}, findSub m s = some i → m.isPrefixOf (s.drop i) = true := by
  intro s
  induction s with
  | nil =>
    intro i h
    rw [findSub] at h
    by_cases he : m.isEmpty
    · rw [if_pos he] at h
      cases h
      cases m with
      | nil => rfl
      | cons a as => simp [List.isEmpty] at he
    · rw [if_neg he] at h
      cases h
  | cons c rest ih =>
    intro i h
    by_cases hp : m.isPrefixOf (c :: rest) = true
    · rw [findSub, hp] at h
      simp only [if_true] at h
      cases h
      simpa using hp
    · rw [Bool.not_eq_true] at hp
      rw [findSub, hp] at h
      simp only [Bool.false_eq_true, if_false, Option.map_eq_some'] at h
      obtain ⟨j, hj, hij⟩ := h
      rw [← hij]
      simpa [List.drop_succ_cons] using ih hj

/-- Decomposition delivered by a successful `splitOnce`. -/
theorem splitOnce_eq_append {s m p r : List Char}
    (h : splitOnce s m = some (p, r)) : s = p ++ (m ++ r) := by
  simp only [splitOnce] at h
  rcases hf : findSub m s with _ | i
  · rw [hf] at h; cases h
  · rw [hf] at h
    simp only [Option.map_some', Option.some_inj, Prod.mk.injEq] at h
    obtain ⟨hp, hr⟩ := h
    obtain ⟨t, ht⟩ := isPrefixOf_iff_append.mp (findSub_isPrefixOf hf)
    have hs : s = s.take i ++ s.drop i := (List.take_append_drop i s).symm
    have hrt : r = t := by
      rw [← hr, ← List.drop_drop, ht, List.drop_left]
    rw [hs, ht, ← hp, hrt]

/-! ## Lemmas about `rstrip` / `lstrip` -/

theorem dropWhile_append_all {p : Char → Bool} {w : List Char}
    (hw : ∀ c ∈ w, p c = true) (s : List Char) :
    (w ++ s).dropWhile p = s.dropWhile p := by
  induction w with
  | nil => rfl
  | cons c w' ih =>
    rw [List.cons_append, List.dropWhile_cons, if_pos (hw c (List.mem_cons_self c w'))]
    exact ih (fun a ha => hw a (List.mem_cons_of_mem c ha))

theorem dropWhile_idem {p : Char → Bool} (s : List Char) :
    (s.dropWhile p).dropWhile p = s.dropWhile p := by
  induction s with
  | nil => rfl
  | cons c s' ih =>
    by_cases h : p c = true
    · rw [List.dropWhile_cons, if_pos h, ih]
    · rw [List.dropWhile_cons, if_neg (by simp [h]), List.dropWhile_cons,
        if_neg (by simp [h])]

theorem mem_takeWhile_p {p : Char → Bool} :
    ∀ {l : List Char} {a : Char}, a ∈ l.takeWhile p → p a = true := by
  intro l
  induction l with
  | nil => intro a h; simp [List.takeWhile] at h
  | cons c l' ih =>
    intro a h
    by_cases hc : p c = true
    · rw [List.takeWhile_cons, if_pos hc] at h
      rcases List.mem_cons.mp h with h1 | h2
      · rw [h1]; exact hc
      · exact ih h2
    · rw [List.takeWhile_cons, if_neg (by simp [hc])] at h
      cases h

theorem rstrip_eq_append (s : List Char) :
    ∃ w, s = rstrip s ++ w ∧ ∀ c ∈ w, isPySpace c = true := by
  refine ⟨(s.reverse.takeWhile isPySpace).reverse, ?_, ?_⟩
  · simp only [rstrip]
    rw [← List.reverse_append, List.takeWhile_append_dropWhile, List.reverse_reverse]
  · intro c hc
    exact mem_takeWhile_p (List.mem_reverse.mp hc)

theorem rstrip_append_ws {w : List Char} (hw : ∀ c ∈ w, isPySpace c = true)
    (s : List Char) : rstrip (s ++ w) = rstrip s := by
  simp only [rstrip]
  rw [List.reverse_append,
    dropWhile_append_all (fun c hc => hw c (List.mem_reverse.mp hc))]

theorem rstrip_idem (s : List Char) : rstrip (rstrip s) = rstrip s := by
  simp only [rstrip]
  rw [List.reverse_reverse, dropWhile_idem]

theorem lstrip_eq_append (s : List Char) :
    ∃ w, s = w ++ lstrip s ∧ ∀ c ∈ w, isPySpace c = true :=
  ⟨s.takeWhile isPySpace, (List.takeWhile_append_dropWhile isPySpace s).symm,
    fun _ hc => mem_takeWhile_p hc⟩

theorem countOcc_rstrip_eq_zero {m s : List Char} (h : countOcc m s = 0) :
    countOcc m (rstrip s) = 0 := by
  obtain ⟨w, hw, _⟩ := rstrip_eq_append s
  have h2 := countOcc_le_append m (rstrip s) w
  rw [← hw, h] at h2
  omega

/-! ## Structure of the managed block -/

theorem joinNL_append_last (ls : List (List Char)) (z : List Char) :
    joinNL (ls ++ [z]) = linesBody ls ++ z := by
  induction ls with
  | nil => simp [joinNL, linesBody]
  | cons l ls' ih =>
    cases ls' with
    | nil => simp [joinNL, linesBody]
    | cons m r =>
      simp only [List.cons_append, joinNL, List.append_eq] at ih ⊢
      rw [ih]
      simp [linesBody]

theorem blockText_eq (lines : List (List Char)) :
    blockText lines =
      MANAGED_ENV_BLOCK_START ++ '\n' ::
        (linesBody lines ++ (MANAGED_ENV_BLOCK_END ++ ['\n'])) := by
  rw [blockText, show MANAGED_ENV_BLOCK_START :: (lines ++ [MANAGED_ENV_BLOCK_END]) =
      (MANAGED_ENV_BLOCK_START :: lines) ++ [MANAGED_ENV_BLOCK_END] from rfl,
    joinNL_append_last]
  simp [linesBody]

theorem start_ne_nil : MANAGED_ENV_BLOCK_START ≠ [] := by decide

theorem end_ne_nil : MANAGED_ENV_BLOCK_END ≠ [] := by decide

theorem nl_not_mem_start : '\n' ∉ MANAGED_ENV_BLOCK_START := by decide

theorem nl_not_mem_end : '\n' ∉ MANAGED_ENV_BLOCK_END := by decide

theorem countOcc_start_start :
    countOcc MANAGED_ENV_BLOCK_START MANAGED_ENV_BLOCK_START = 1 := by decide

theorem countOcc_end_end :
    countOcc MANAGED_ENV_BLOCK_END MANAGED_ENV_BLOCK_END = 1 := by decide

theorem countOcc_start_end :
    countOcc MANAGED_ENV_BLOCK_START MANAGED_ENV_BLOCK_END = 0 := by decide

theorem countOcc_end_start :
    countOcc MANAGED_ENV_BLOCK_END MANAGED_ENV_BLOCK_START = 0 := by decide

/-- The fresh-append branch: if the start marker does not occur in the
existing content, `write_managed_env_block` appends the block after the
right-stripped content. -/
theorem updateContent_fresh {e : List Char} (lines : List (List Char))
    (hS : countOcc MANAGED_ENV_BLOCK_START e = 0) :
    updateContent e lines = some (rstrip e ++ '\n' :: '\n' :: blockText lines) := by
  have hc : containsSub MANAGED_ENV_BLOCK_START e = false :=
    (containsSub_eq_false_iff start_ne_nil e).mpr hS
  rw [updateContent, hc]
  simp

theorem countOcc_start_block (q : List Char) (lines : List (List Char))
    (hq : countOcc MANAGED_ENV_BLOCK_START q = 0)
    (hl : ∀ l ∈ lines, countOcc MANAGED_ENV_BLOCK_START l = 0) :
    countOcc MANAGED_ENV_BLOCK_START (q ++ '\n' :: '\n' :: blockText lines) = 1 := by
  rw [blockText_eq,
    countOcc_append_nl nl_not_mem_start start_ne_nil,
    countOcc_cons_nl nl_not_mem_start start_ne_nil,
    countOcc_append_nl nl_not_mem_start start_ne_nil,
    countOcc_linesBody nl_not_mem_start start_ne_nil hl,
    show MANAGED_ENV_BLOCK_END ++ ['\n'] = MANAGED_ENV_BLOCK_END ++ '\n' :: [] from rfl,
    countOcc_append_nl nl_not_mem_start start_ne_nil,
    hq, countOcc_start_start, countOcc_start_end]
  rfl

theorem countOcc_end_block (q : List Char) (lines : List (List Char))
    (hq : countOcc MANAGED_ENV_BLOCK_END q = 0)
    (hl : ∀ l ∈ lines, countOcc MANAGED_ENV_BLOCK_END l = 0) :
    countOcc MANAGED_ENV_BLOCK_END (q ++ '\n' :: '\n' :: blockText lines) = 1 := by
  rw [blockText_eq,
    countOcc_append_nl nl_not_mem_end end_ne_nil,
    countOcc_cons_nl nl_not_mem_end end_ne_nil,
    countOcc_append_nl nl_not_mem_end end_ne_nil,
    countOcc_linesBody nl_not_mem_end end_ne_nil hl,
    show MANAGED_ENV_BLOCK_END ++ ['\n'] = MANAGED_ENV_BLOCK_END ++ '\n' :: [] from rfl,
    countOcc_append_nl nl_not_mem_end end_ne_nil,
    hq, countOcc_end_end, countOcc_end_start]
  rfl

theorem splitOnce_block_start (q : List Char) (lines : List (List Char))
    (hq : countOcc MANAGED_ENV_BLOCK_START q = 0) :
    splitOnce (q ++ '\n' :: '\n' :: blockText lines) MANAGED_ENV_BLOCK_START =
      some (q ++ ['\n', '\n'],
        '\n' :: (linesBody lines ++ (MANAGED_ENV_BLOCK_END ++ ['\n']))) := by
  have hq' : countOcc MANAGED_ENV_BLOCK_START (q ++ ['\n']) = 0 := by
    rw [show q ++ ['\n'] = q ++ '\n' :: [] from rfl,
      countOcc_append_nl nl_not_mem_start start_ne_nil, hq]
    rfl
  rw [blockText_eq]
  rw [show q ++ '\n' :: '\n' :: (MANAGED_ENV_BLOCK_START ++ '\n' ::
        (linesBody lines ++ (MANAGED_ENV_BLOCK_END ++ ['\n']))) =
      (q ++ ['\n']) ++ '\n' :: (MANAGED_ENV_BLOCK_START ++ '\n' ::
        (linesBody lines ++ (MANAGED_ENV_BLOCK_END ++ ['\n']))) by simp]
  rw [splitOnce_after_nl nl_not_mem_start start_ne_nil _ _ hq']
  simp

theorem splitOnce_block_end (lines : List (List Char))
    (hl : ∀ l ∈ lines, countOcc MANAGED_ENV_BLOCK_END l = 0) :
    splitOnce ('\n' :: (linesBody lines ++ (MANAGED_ENV_BLOCK_END ++ ['\n'])))
        MANAGED_ENV_BLOCK_END =
      some ('\n' :: linesBody lines, ['\n']) := by
  have hz : countOcc MANAGED_ENV_BLOCK_END ([] : List Char) = 0 := rfl
  have hf : findSub MANAGED_ENV_BLOCK_END
      ('\n' :: (linesBody lines ++ (MANAGED_ENV_BLOCK_END ++ ['\n']))) =
      some ((linesBody lines).length + 1) := by
    have h3 := findSub_append_nl nl_not_mem_end end_ne_nil []
      (linesBody lines ++ (MANAGED_ENV_BLOCK_END ++ ['\n'])) hz
    rw [List.nil_append] at h3
    rw [h3, findSub_linesBody nl_not_mem_end end_ne_nil hl,
      findSub_append_self]
    simp
  have htake : ('\n' :: (linesBody lines ++ (MANAGED_ENV_BLOCK_END ++ ['\n']))).take
      ((linesBody lines).length + 1) = '\n' :: linesBody lines := by
    rw [show '\n' :: (linesBody lines ++ (MANAGED_ENV_BLOCK_END ++ ['\n'])) =
        ('\n' :: linesBody lines) ++ (MANAGED_ENV_BLOCK_END ++ ['\n']) from rfl]
    exact List.take_left' (by simp)
  have hdrop : ('\n' :: (linesBody lines ++ (MANAGED_ENV_BLOCK_END ++ ['\n']))).drop
      ((linesBody lines).length + 1 + MANAGED_ENV_BLOCK_END.length) = ['\n'] := by
    rw [show '\n' :: (linesBody lines ++ (MANAGED_ENV_BLOCK_END ++ ['\n'])) =
        (('\n' :: linesBody lines) ++ MANAGED_ENV_BLOCK_END) ++ ['\n'] by simp]
    exact List.drop_left' (by simp; omega)
  simp only [splitOnce, hf, Option.map_some']
  rw [htake, hdrop]

/-- The replace branch: updating content that consists of marker-free
material followed by a block replaces just the block interior. -/
theorem updateContent_block (q : List Char) (lines1 lines2 : List (List Char))
    (hqS : countOcc MANAGED_ENV_BLOCK_START q = 0)
    (hqE : countOcc MANAGED_ENV_BLOCK_END q = 0)
    (hl1S : ∀ l ∈ lines1, countOcc MANAGED_ENV_BLOCK_START l = 0)
    (hl1E : ∀ l ∈ lines1, countOcc MANAGED_ENV_BLOCK_END l = 0)
    (hrq : rstrip q = q) :
    updateContent (q ++ '\n' :: '\n' :: blockText lines1) lines2 =
      some (q ++ '\n' :: '\n' :: blockText lines2) := by
  have hcS : containsSub MANAGED_ENV_BLOCK_START
      (q ++ '\n' :: '\n' :: blockText lines1) = true :=
    containsSub_eq_true_of_pos start_ne_nil
      (by rw [countOcc_start_block q lines1 hqS hl1S]; omega)
  have hcE : containsSub MANAGED_ENV_BLOCK_END
      (q ++ '\n' :: '\n' :: blockText lines1) = true :=
    containsSub_eq_true_of_pos end_ne_nil
      (by rw [countOcc_end_block q lines1 hqE hl1E]; omega)
  rw [updateContent, hcS, hcE]
  simp only [Bool.and_self, if_true,
    splitOnce_block_start q lines1 hqS, splitOnce_block_end lines1 hl1E]
  rw [show q ++ ['\n', '\n'] = q ++ (['\n', '\n'] : List Char) from rfl,
    rstrip_append_ws (by decide) q, hrq]
  have hl : lstrip ['\n'] = [] := rfl
  rw [hl, List.append_nil]
/-! ## Claims C1, C2, C7, C4: the managed block editor -/

/-- Claim C1, amended: provided the initial file content contains no
occurrence of either marker string, and no line of either list contains a
marker, running `write_managed_env_block` with the first list and then with
the second yields content containing exactly one start marker and exactly
one end marker, and the region between them is exactly the second list of
lines, each on its own line. -/
theorem c1_double_run_single_block (e : List Char) (lines1 lines2 : List (List Char))
    (heS : countOcc MANAGED_ENV_BLOCK_START e = 0)
    (heE : countOcc MANAGED_ENV_BLOCK_END e = 0)
    (h1S : ∀ l ∈ lines1, countOcc MANAGED_ENV_BLOCK_START l = 0)
    (h1E : ∀ l ∈ lines1, countOcc MANAGED_ENV_BLOCK_END l = 0)
    (h2S : ∀ l ∈ lines2, countOcc MANAGED_ENV_BLOCK_START l = 0)
    (h2E : ∀ l ∈ lines2, countOcc MANAGED_ENV_BLOCK_END l = 0) :
    updateContent e lines1 = some (rstrip e ++ '\n' :: '\n' :: blockText lines1) ∧
    updateContent (rstrip e ++ '\n' :: '\n' :: blockText lines1) lines2 =
      some (rstrip e ++ '\n' :: '\n' :: blockText lines2) ∧
    countOcc MANAGED_ENV_BLOCK_START (rstrip e ++ '\n' :: '\n' :: blockText lines2) = 1 ∧
    countOcc MANAGED_ENV_BLOCK_END (rstrip e ++ '\n' :: '\n' :: blockText lines2) = 1 ∧
    splitOnce (rstrip e ++ '\n' :: '\n' :: blockText lines2) MANAGED_ENV_BLOCK_START =
      some (rstrip e ++ ['\n', '\n'],
        '\n' :: (linesBody lines2 ++ (MANAGED_ENV_BLOCK_END ++ ['\n']))) ∧
    splitOnce ('\n' :: (linesBody lines2 ++ (MANAGED_ENV_BLOCK_END ++ ['\n'])))
        MANAGED_ENV_BLOCK_END = some ('\n' :: linesBody lines2, ['\n']) := by
  have hqS := countOcc_rstrip_eq_zero heS
  have hqE := countOcc_rstrip_eq_zero heE
  exact ⟨updateContent_fresh lines1 heS,
    updateContent_block (rstrip e) lines1 lines2 hqS hqE h1S h1E (rstrip_idem e),
    countOcc_start_block (rstrip e) lines2 hqS h2S,
    countOcc_end_block (rstrip e) lines2 hqE h2E,
    splitOnce_block_start (rstrip e) lines2 hqS,
    splitOnce_block_end lines2 h2E⟩

theorem c1_double_run_single_block_witness :
    countOcc MANAGED_ENV_BLOCK_START
      (rstrip "# mine".data ++ '\n' :: '\n' :: blockText ["export B='2'".data]) = 1 ∧
    countOcc MANAGED_ENV_BLOCK_END
      (rstrip "# mine".data ++ '\n' :: '\n' :: blockText ["export B='2'".data]) = 1 :=
  ⟨(c1_double_run_single_block "# mine".data ["export A='1'".data] ["export B='2'".data]
      (by decide) (by decide) (by decide) (by decide) (by decide) (by decide)).2.2.1,
   (c1_double_run_single_block "# mine".data ["export A='1'".data] ["export B='2'".data]
      (by decide) (by decide) (by decide) (by decide) (by decide) (by decide)).2.2.2.1⟩

set_option maxRecDepth 8000 in
/-- Claim C1 as stated is false: for an initial file content that already
contains two managed blocks, two runs leave two start markers (not exactly
one), even though neither list of lines mentions a marker. -/
theorem c1_counterexample :
    ((updateContent c1CexInitial ["export A='1'".data]).bind
      (fun r1 => updateContent r1 ["export B='2'".data])).map
      (fun r2 => countOcc MANAGED_ENV_BLOCK_START r2) = some 2 := by decide

/-- Claim C2, amended: when the content contains a managed block, only the
region between the first start marker and the following end marker is
replaced; the content before the first start marker is preserved except
that its trailing whitespace is normalized to a single blank line, and the
content after that end marker is preserved except that its leading
whitespace is removed. -/
theorem c2_replace_frame (e : List Char) (lines : List (List Char))
    (pre rest mid suf : List Char)
    (h1 : splitOnce e MANAGED_ENV_BLOCK_START = some (pre, rest))
    (h2 : splitOnce rest MANAGED_ENV_BLOCK_END = some (mid, suf)) :
    e = pre ++ (MANAGED_ENV_BLOCK_START ++ (mid ++ (MANAGED_ENV_BLOCK_END ++ suf))) ∧
    updateContent e lines =
      some (rstrip pre ++ '\n' :: '\n' :: (blockText lines ++ lstrip suf)) ∧
    (∃ w, pre = rstrip pre ++ w ∧ ∀ c ∈ w, isPySpace c = true) ∧
    (∃ w, suf = w ++ lstrip suf ∧ ∀ c ∈ w, isPySpace c = true) := by
  have hdecomp1 : e = pre ++ (MANAGED_ENV_BLOCK_START ++ rest) := splitOnce_eq_append h1
  have hdecomp2 : rest = mid ++ (MANAGED_ENV_BLOCK_END ++ suf) := splitOnce_eq_append h2
  have hcS : containsSub MANAGED_ENV_BLOCK_START e = true := by
    simp only [containsSub]
    rcases hf : findSub MANAGED_ENV_BLOCK_START e with _ | i
    · simp only [splitOnce, hf, Option.map_none'] at h1
      exact Option.noConfusion h1
    · rfl
  have hcE : containsSub MANAGED_ENV_BLOCK_END e = true := by
    have hposrest : 0 < countOcc MANAGED_ENV_BLOCK_END rest := by
      rcases hf : findSub MANAGED_ENV_BLOCK_END rest with _ | i
      · simp only [splitOnce, hf, Option.map_none'] at h2
        exact Option.noConfusion h2
      · exact countOcc_pos_of_findSub end_ne_nil hf
    have hle : countOcc MANAGED_ENV_BLOCK_END rest ≤ countOcc MANAGED_ENV_BLOCK_END e := by
      rw [hdecomp1, ← List.append_assoc]
      exact countOcc_le_append_left _ _ _
    exact containsSub_eq_true_of_pos end_ne_nil (by omega)
  refine ⟨by rw [hdecomp1, hdecomp2], ?_, rstrip_eq_append pre, lstrip_eq_append suf⟩
  rw [updateContent, hcS, hcE]
  simp only [Bool.and_self, if_true, h1, h2]

theorem c2_replace_frame_witness :
    updateContent ("A\n".data ++ (MANAGED_ENV_BLOCK_START ++ '\n' ::
        (MANAGED_ENV_BLOCK_END ++ "\nB".data))) ["export A='1'".data] =
      some (rstrip "A\n".data ++ '\n' :: '\n' ::
        (blockText ["export A='1'".data] ++ lstrip "\nB".data)) :=
  (c2_replace_frame ("A\n".data ++ (MANAGED_ENV_BLOCK_START ++ '\n' ::
      (MANAGED_ENV_BLOCK_END ++ "\nB".data))) ["export A='1'".data]
    "A\n".data ('\n' :: (MANAGED_ENV_BLOCK_END ++ "\nB".data)) "\n".data "\nB".data
    (by decide) (by decide)).2.1

/-- Claim C2 as stated is false: the content before the first start marker
of `c2CexContent` is `"A "`, yet after the edit the new content does not
even begin with `"A "` — the trailing space was rewritten to a blank line,
so the content outside the block is not byte-for-byte preserved. -/
theorem c2_counterexample :
    splitOnce c2CexContent MANAGED_ENV_BLOCK_START =
      some ("A ".data, '\n' :: (MANAGED_ENV_BLOCK_END ++ " B".data)) ∧
    (updateContent c2CexContent ["export A='1'".data]).map
      (fun r => ("A ".data).isPrefixOf r) = some false := by decide

/-- Claim C7, amended: when the file does not exist (empty content) or its
content lacks one of the markers, the new content is the existing content
with its trailing whitespace removed, followed by one blank line and the
block: start marker line, each given line followed by a newline, end
marker line. -/
theorem c7_fresh_append (e : List Char) (lines : List (List Char))
    (h : containsSub MANAGED_ENV_BLOCK_START e = false ∨
         containsSub MANAGED_ENV_BLOCK_END e = false) :
    updateContent e lines = some (rstrip e ++ '\n' :: '\n' :: blockText lines) ∧
    blockText lines = MANAGED_ENV_BLOCK_START ++ '\n' ::
      (linesBody lines ++ (MANAGED_ENV_BLOCK_END ++ ['\n'])) ∧
    (∃ w, e = rstrip e ++ w ∧ ∀ c ∈ w, isPySpace c = true) := by
  refine ⟨?_, blockText_eq lines, rstrip_eq_append e⟩
  rw [updateContent]
  rcases h with h | h
  · rw [h]; simp
  · rw [h]; simp

theorem c7_fresh_append_witness :
    updateContent "A".data ["export A='1'".data] =
      some (rstrip "A".data ++ '\n' :: '\n' :: blockText ["export A='1'".data]) :=
  (c7_fresh_append "A".data ["export A='1'".data] (Or.inl (by decide))).1

/-- Claim C7 as stated is false: for existing content `"A "` (with a
trailing space), the new content is not the existing content followed by a
separator and the block — it does not even have `"A "` as a prefix,
because the trailing whitespace is stripped first. -/
theorem c7_counterexample :
    (updateContent "A ".data ["export A='1'".data]).map
      (fun r => ("A ".data).isPrefixOf r) = some false := by decide

/-- Claim C4, amended: a write error makes `write_managed_env_block` return
`False`, and the caller then prints the rendered lines (two-space
indented) as manual fallback instructions; a read error is swallowed by
treating the file as empty rather than reported, and the call can still
return `True`; no exception escapes as long as the effective content does
not put the end marker only before the first start marker. -/
theorem c4_io_failure (fe : Bool) (rr : Except Unit (List Char))
    (lines : List (List Char)) (nc : List Char)
    (h : updateContent (effectiveExisting fe rr) lines = some nc) :
    write_managed_env_block fe rr false lines = .returned false none ∧
    write_managed_env_block fe rr true lines = .returned true (some nc) ∧
    effectiveExisting true (.error ()) = ([] : List Char) ∧
    configure_env_fallback_lines false lines =
      lines.map (fun l => ' ' :: ' ' :: l) := by
  refine ⟨?_, ?_, rfl, rfl⟩
  · simp [write_managed_env_block, h]
  · simp [write_managed_env_block, h]

theorem c4_io_failure_witness :
    write_managed_env_block true (.ok "x".data) false ["export A='1'".data] =
      .returned false none :=
  (c4_io_failure true (.ok "x".data) ["export A='1'".data]
    ("x\n\n".data ++ blockText ["export A='1'".data]) (by decide)).1

/-- Claim C4 as stated is false on two counts: a failed read with a
successful write returns `True` (the claim demands `False` on any I/O
error), and on `c4BadContent` the unguarded `rest.split(...)` raises a
`ValueError` past the function boundary. -/
theorem c4_counterexample :
    write_managed_env_block true (.error ()) true ["export A='1'".data] =
      .returned true (some ("\n\n".data ++ blockText ["export A='1'".data])) ∧
    write_managed_env_block true (.ok c4BadContent) true ["export A='1'".data] =
      .raised := by decide

/-! ## Claims C3 and C6: API-key validation -/

/-- Claim C3: an empty API key makes both scripts exit with code 1,
whatever the base URL and confirmation inputs are. -/
theorem c3_empty_key_exits_one (baseInput confirmAns : List Char) :
    (claude_get_api_config baseInput [] confirmAns).outcome = .error 1 ∧
    (codex_get_api_config baseInput [] confirmAns).outcome = .error 1 :=
  ⟨rfl, rfl⟩

/-- Claim C6, amended: a non-empty key that does not start with `sk-`
triggers the confirmation prompt in both scripts; if the lowercased answer
is neither `y` nor `yes` (in particular if it is empty) the script exits
with code 1; otherwise configuration proceeds with that key. -/
theorem c6_bad_prefix_confirmation (baseInput keyInput confirmAns : List Char)
    (hne : keyInput ≠ [])
    (hpfx : ("sk-".data).isPrefixOf keyInput = false) :
    (claude_get_api_config baseInput keyInput confirmAns).promptedConfirm = true ∧
    (codex_get_api_config baseInput keyInput confirmAns).promptedConfirm = true ∧
    (confirm_answer confirmAns false = false →
      (claude_get_api_config baseInput keyInput confirmAns).outcome = .error 1 ∧
      (codex_get_api_config baseInput keyInput confirmAns).outcome = .error 1) ∧
    (confirm_answer confirmAns false = true →
      (claude_get_api_config baseInput keyInput confirmAns).outcome =
        .ok ((if baseInput.isEmpty then "https://api.anthropic.com".data else baseInput),
          keyInput) ∧
      (codex_get_api_config baseInput keyInput confirmAns).outcome =
        .ok ((if baseInput.isEmpty then "https://api.openai.com/v1".data
          else normalize_base_url baseInput), keyInput)) := by
  have hkey : keyInput.isEmpty = false := isEmpty_false_of_ne hne
  cases hc : confirm_answer confirmAns false with
  | false =>
    refine ⟨?_, ?_, ?_, ?_⟩ <;>
      simp [claude_get_api_config, codex_get_api_config, hkey, hpfx, hc]
  | true =>
    refine ⟨?_, ?_, ?_, ?_⟩ <;>
      simp [claude_get_api_config, codex_get_api_config, hkey, hpfx, hc]

theorem c6_bad_prefix_confirmation_witness :
    (claude_get_api_config [] "abc".data "n".data).outcome = .error 1 :=
  ((c6_bad_prefix_confirmation [] "abc".data "n".data (by decide) (by decide)).2.2.1
    (by decide)).1

/-- Claim C6 as stated is false in one detail: the answer `y` is not the
word `yes`, so per the claim it should abort with exit code 1, yet both
scripts accept it and proceed with the key. -/
theorem c6_counterexample :
    (claude_get_api_config [] "key-1".data "y".data).outcome =
      .ok ("https://api.anthropic.com".data, "key-1".data) ∧
    (codex_get_api_config [] "key-1".data "y".data).outcome =
      .ok ("https://api.openai.com/v1".data, "key-1".data) ∧
    "y".data ≠ "yes".data :=
  ⟨rfl, rfl, by decide⟩

/-! ## Claims C5 and C10: codex base-URL normalization -/

theorem isSuffixOf_append_self (m x : List Char) : m.isSuffixOf (x ++ m) = true := by
  simp only [List.isSuffixOf]
  rw [List.reverse_append]
  exact isPrefixOf_append_self m.reverse x.reverse

theorem head_reverse_of_v1_suffix {n : List Char}
    (h : ("/v1".data).isSuffixOf n = true) :
    ∃ t, n.reverse = '1' :: 'v' :: '/' :: t := by
  simp only [List.isSuffixOf] at h
  obtain ⟨t, ht⟩ := isPrefixOf_iff_append.mp h
  exact ⟨t, by rw [ht]; rfl⟩

theorem normalize_base_url_fix {n : List Char}
    (hsuf : ("/v1".data).isSuffixOf n = true)
    (hrs : rstripSlashes n = n) : normalize_base_url n = n := by
  simp [normalize_base_url, hrs, hsuf]

set_option maxRecDepth 8000 in
/-- Claim C5: entering `https://example.com` in the codex script yields the
pair with base URL `https://example.com/v1`, whose escaped form appears as
`base_url = "https://example.com/v1"` in the written config.toml; in
general the entered URL has its trailing slashes stripped and `/v1` is
appended exactly when the stripped URL does not already end in `/v1`. -/
theorem c5_codex_base_url (u : List Char) :
    (codex_get_api_config "https://example.com".data "sk-k".data []).outcome =
      .ok ("https://example.com/v1".data, "sk-k".data) ∧
    containsSub "base_url = \"https://example.com/v1\"".data
      (codex_config_toml "https://example.com/v1".data) = true ∧
    (("/v1".data).isSuffixOf (rstripSlashes u) = false →
      normalize_base_url u = rstripSlashes u ++ "/v1".data) ∧
    (("/v1".data).isSuffixOf (rstripSlashes u) = true →
      normalize_base_url u = rstripSlashes u) ∧
    (∃ j, u = rstripSlashes u ++ List.replicate j '/') := by
  refine ⟨rfl, by decide, ?_, ?_, ?_⟩
  · intro h; simp [normalize_base_url, h]
  · intro h; simp [normalize_base_url, h]
  · refine ⟨(u.reverse.takeWhile (fun c => c = '/')).length, ?_⟩
    have h1 : u = rstripSlashes u ++ (u.reverse.takeWhile (fun c => c = '/')).reverse := by
      simp only [rstripSlashes]
      rw [← List.reverse_append, List.takeWhile_append_dropWhile, List.reverse_reverse]
    have h2 : (u.reverse.takeWhile (fun c => c = '/')).reverse =
        List.replicate (u.reverse.takeWhile (fun c => c = '/')).length '/' := by
      have hall : ∀ b ∈ (u.reverse.takeWhile (fun c => c = '/')).reverse, b = '/' := by
        intro b hb
        have := mem_takeWhile_p (List.mem_reverse.mp hb)
        exact of_decide_eq_true this
      rw [List.eq_replicate_of_mem hall]
      simp
    rw [← h2]
    exact h1

theorem c5_codex_base_url_witness :
    normalize_base_url "https://a.com//".data =
      rstripSlashes "https://a.com//".data ++ "/v1".data :=
  (c5_codex_base_url "https://a.com//".data).2.2.1 (by decide)

/-- Claim C10: the codex base-URL normalization is idempotent on non-empty
input, and every normalized result ends in `/v1` with no trailing
slash. -/
theorem c10_normalize_idempotent (u : List Char) (_hne : u ≠ []) :
    normalize_base_url (normalize_base_url u) = normalize_base_url u ∧
    ("/v1".data).isSuffixOf (normalize_base_url u) = true ∧
    (normalize_base_url u).getLast? ≠ some '/' := by
  have hsuf : ("/v1".data).isSuffixOf (normalize_base_url u) = true := by
    by_cases h : ("/v1".data).isSuffixOf (rstripSlashes u) = true
    · simp [normalize_base_url, h]
    · simp [normalize_base_url, h, isSuffixOf_append_self]
  obtain ⟨t, ht⟩ := head_reverse_of_v1_suffix hsuf
  have hrs : rstripSlashes (normalize_base_url u) = normalize_base_url u := by
    simp only [rstripSlashes, ht]
    rw [List.dropWhile_cons, if_neg (by decide), ← ht, List.reverse_reverse]
  have hlast : (normalize_base_url u).getLast? ≠ some '/' := by
    have hn : normalize_base_url u = ('v' :: '/' :: t).reverse ++ ['1'] := by
      have h3 := congrArg List.reverse ht
      rw [List.reverse_reverse, List.reverse_cons] at h3
      exact h3
    rw [hn, List.getLast?_concat]
    intro hcontra
    cases hcontra
  exact ⟨normalize_base_url_fix hsuf hrs, hsuf, hlast⟩

theorem c10_normalize_idempotent_witness :
    normalize_base_url (normalize_base_url "https://x//".data) =
      normalize_base_url "https://x//".data :=
  (c10_normalize_idempotent "https://x//".data (by decide)).1

/-! ## Claim C8: TOML escaping -/

theorem pyReplace1_append (c : Char) (rep a b : List Char) :
    pyReplace1 c rep (a ++ b) = pyReplace1 c rep a ++ pyReplace1 c rep b := by
  induction a with
  | nil => rfl
  | cons x a' ih => simp [pyReplace1, ih, List.append_assoc]

theorem escape_toml_string_eq_spec (v : List Char) :
    escape_toml_string v = escapeTomlSpec v := by
  induction v with
  | nil => rfl
  | cons c v' ih =>
    have hstep : escape_toml_string (c :: v') =
        pyReplace1 '"' ("\\\"".data) (if c = '\\' then "\\\\".data else [c]) ++
          escape_toml_string v' := by
      simp only [escape_toml_string, pyReplace1]
      rw [pyReplace1_append]
    rw [hstep, ih]
    by_cases h1 : c = '\\'
    · subst h1
      rw [if_pos rfl,
        show pyReplace1 '"' ("\\\"".data) ("\\\\".data) = "\\\\".data from rfl]
      simp [escapeTomlSpec]
    · by_cases h2 : c = '"'
      · subst h2
        rw [if_neg h1,
          show pyReplace1 '"' ("\\\"".data) ['"'] = "\\\"".data from rfl]
        simp [escapeTomlSpec, h1]
      · rw [if_neg h1, show pyReplace1 '"' ("\\\"".data) [c] =
          (if c = '"' then "\\\"".data else [c]) ++ [] from rfl, if_neg h2]
        simp [escapeTomlSpec, h1, h2]

theorem tomlUnescape_cons_other {c : Char} (h1 : c ≠ '\\') (h2 : c ≠ '"')
    (rest : List Char) :
    tomlUnescape (c :: rest) = (tomlUnescape rest).map (fun t => c :: t) := by
  cases rest with
  | nil => simp [tomlUnescape, h1, h2]
  | cons d rest2 => simp [tomlUnescape, h1, h2]

theorem tomlUnescape_escape (v : List Char) :
    tomlUnescape (escape_toml_string v) = some v := by
  rw [escape_toml_string_eq_spec]
  induction v with
  | nil => rfl
  | cons c v' ih =>
    by_cases h1 : c = '\\'
    · subst h1
      rw [show escapeTomlSpec ('\\' :: v') =
          '\\' :: '\\' :: escapeTomlSpec v' from rfl]
      simp [tomlUnescape, ih]
    · by_cases h2 : c = '"'
      · subst h2
        rw [show escapeTomlSpec ('"' :: v') = '\\' :: '"' :: escapeTomlSpec v' by
          simp [escapeTomlSpec, h1]]
        simp [tomlUnescape, ih]
      · rw [show escapeTomlSpec (c :: v') = c :: escapeTomlSpec v' by
          simp [escapeTomlSpec, h1, h2]]
        rw [tomlUnescape_cons_other h1 h2, ih]
        rfl

/-- Claim C8: every user-supplied string embedded into the codex
config.toml document (base URL, Context7 key, Cunzhi path) has each
backslash doubled and each double quote backslash-escaped before being
placed between double quotes; reading the escaped value back under TOML
escape rules returns exactly the original string. -/
theorem c8_toml_escaping :
    (∀ v, escape_toml_string v = escapeTomlSpec v) ∧
    (∀ v, tomlUnescape (escape_toml_string v) = some v) ∧
    (∀ b, codex_config_toml b =
      codexTomlHead ++ '"' :: (escape_toml_string b ++ '"' :: codexTomlTail)) ∧
    (∀ k, context7_mcp_toml k =
      ("\n\n[mcp_servers.context7]\ntype = \"stdio\"\ncommand = \"npx\"\n" ++
        "args = [\"-y\", \"@upstash/context7-mcp\", \"--api-key\", ").data ++
      '"' :: (escape_toml_string k ++ '"' :: "]\ntool_timeout_sec = 60.0".data)) ∧
    (∀ p, cunzhi_mcp_toml p =
      "\n\n[mcp_servers.cunzhi]\ntype = \"stdio\"\ncommand = ".data ++
      '"' :: (escape_toml_string p ++ '"' :: "\ntool_timeout_sec = 600.0".data)) :=
  ⟨escape_toml_string_eq_spec, tomlUnescape_escape,
    fun _ => rfl, fun _ => rfl, fun _ => rfl⟩

/-! ## Claim C9: dialect-appropriate quoting of environment lines -/

theorem shLexWord_single_body (v : List Char) :
    shLexWord .single (pyReplace1 '\'' ("'\"'\"'".data) v ++ ['\'']) = some v := by
  induction v with
  | nil => rfl
  | cons c v' ih =>
    by_cases h : c = '\''
    · subst h
      rw [show pyReplace1 '\'' ("'\"'\"'".data) ('\'' :: v') ++ ['\''] =
          '\'' :: '"' :: '\'' :: '"' :: '\'' ::
            (pyReplace1 '\'' ("'\"'\"'".data) v' ++ ['\'']) from rfl]
      simp [shLexWord, shDoubleSpecial, ih]
    · rw [show pyReplace1 '\'' ("'\"'\"'".data) (c :: v') ++ ['\''] =
          c :: (pyReplace1 '\'' ("'\"'\"'".data) v' ++ ['\'']) by
        simp [pyReplace1, h]]
      simp [shLexWord, h, ih]

theorem shLexWord_single_quote (v : List Char) :
    shLexWord .top (sh_single_quote v) = some v := by
  simp only [sh_single_quote]
  rw [show shLexWord .top ('\'' :: (pyReplace1 '\'' ("'\"'\"'".data) v ++ ['\''])) =
      shLexWord .single (pyReplace1 '\'' ("'\"'\"'".data) v ++ ['\'']) from rfl]
  exact shLexWord_single_body v

theorem psLexWord_cons_other {c : Char} (h : c ≠ '\'') (rest : List Char) :
    psLexWord true (c :: rest) = (psLexWord true rest).map (fun t => c :: t) := by
  cases rest with
  | nil => simp [psLexWord, h]
  | cons d rest2 => simp [psLexWord, h]

theorem psLexWord_single_body (v : List Char) :
    psLexWord true (pyReplace1 '\'' ("''".data) v ++ ['\'']) = some v := by
  induction v with
  | nil => rfl
  | cons c v' ih =>
    by_cases h : c = '\''
    · subst h
      rw [show pyReplace1 '\'' ("''".data) ('\'' :: v') ++ ['\''] =
          '\'' :: '\'' :: (pyReplace1 '\'' ("''".data) v' ++ ['\'']) from rfl]
      simp [psLexWord, ih]
    · rw [show pyReplace1 '\'' ("''".data) (c :: v') ++ ['\''] =
          c :: (pyReplace1 '\'' ("''".data) v' ++ ['\'']) by
        simp [pyReplace1, h]]
      rw [psLexWord_cons_other h, ih]
      rfl

theorem psLexWord_single_quote (v : List Char) :
    psLexWord false (ps_single_quote v) = some v := by
  simp only [ps_single_quote]
  rw [show psLexWord false ('\'' :: (pyReplace1 '\'' ("''".data) v ++ ['\''])) =
      psLexWord true (pyReplace1 '\'' ("''".data) v ++ ['\'']) from rfl]
  exact psLexWord_single_body v

theorem fishLexWord_top_squote (rest : List Char) :
    fishLexWord .top ('\'' :: rest) = fishLexWord .single rest := by
  cases rest with
  | nil => simp [fishLexWord]
  | cons d r => simp [fishLexWord]

theorem fishLexWord_top_dquote (rest : List Char) :
    fishLexWord .top ('"' :: rest) = fishLexWord .double rest := by
  cases rest with
  | nil => simp [fishLexWord]
  | cons d r => simp [fishLexWord]

theorem fishLexWord_single_close (rest : List Char) :
    fishLexWord .single ('\'' :: rest) = fishLexWord .top rest := by
  cases rest with
  | nil => simp [fishLexWord]
  | cons d r => simp [fishLexWord]

theorem fishLexWord_single_other {c : Char} (h1 : c ≠ '\\') (h2 : c ≠ '\'')
    (rest : List Char) :
    fishLexWord .single (c :: rest) = (fishLexWord .single rest).map (fun t => c :: t) := by
  cases rest with
  | nil => simp [fishLexWord, h1, h2]
  | cons d r => simp [fishLexWord, h1, h2]

theorem fishLexWord_double_close (rest : List Char) :
    fishLexWord .double ('"' :: rest) = fishLexWord .top rest := by
  cases rest with
  | nil => simp [fishLexWord]
  | cons d r => simp [fishLexWord]

theorem fishLexWord_double_squote (rest : List Char) :
    fishLexWord .double ('\'' :: rest) =
      (fishLexWord .double rest).map (fun t => '\'' :: t) := by
  cases rest with
  | nil => simp [fishLexWord]
  | cons d r => simp [fishLexWord]

theorem fishLexWord_single_body (v : List Char) (hv : '\\' ∉ v) :
    fishLexWord .single (pyReplace1 '\'' ("'\"'\"'".data) v ++ ['\'']) = some v := by
  induction v with
  | nil =>
    rw [show pyReplace1 '\'' ("'\"'\"'".data) [] ++ ['\''] = ['\''] from rfl,
      fishLexWord_single_close]
    rfl
  | cons c v' ih =>
    have hc : c ≠ '\\' := fun h => hv (h ▸ List.mem_cons_self c v')
    have hv' : '\\' ∉ v' := fun h => hv (List.mem_cons_of_mem c h)
    by_cases h : c = '\''
    · subst h
      rw [show pyReplace1 '\'' ("'\"'\"'".data) ('\'' :: v') ++ ['\''] =
          '\'' :: '"' :: '\'' :: '"' :: '\'' ::
            (pyReplace1 '\'' ("'\"'\"'".data) v' ++ ['\'']) from rfl]
      rw [fishLexWord_single_close, fishLexWord_top_dquote, fishLexWord_double_squote,
        fishLexWord_double_close, fishLexWord_top_squote, ih hv']
      rfl
    · rw [show pyReplace1 '\'' ("'\"'\"'".data) (c :: v') ++ ['\''] =
          c :: (pyReplace1 '\'' ("'\"'\"'".data) v' ++ ['\'']) by
        simp [pyReplace1, h]]
      rw [fishLexWord_single_other hc h, ih hv']
      rfl

/-- For values free of backslashes, the sh-style single quoting used for
the fish dialect is still exact under fish's quoting rules. -/
theorem fishLexWord_sh_quote_no_backslash (v : List Char) (hv : '\\' ∉ v) :
    fishLexWord .top (sh_single_quote v) = some v := by
  simp only [sh_single_quote]
  rw [fishLexWord_top_squote]
  exact fishLexWord_single_body v hv

/-- Claim C9, amended: for every dialect the rendered lines consist of the
fixed CLAUDE_CONFIG_DIR line — which uses `$HOME` with double quotes so
the home directory still expands — followed by one line per remaining
variable (base URL, API key, timeout, traffic flag, in that order) whose
value is rendered by the dialect's single-quote escaper.  The sh-style
escaper is exact under POSIX quoting rules (bash/zsh/profile) for all
values, and the PowerShell escaper is exact for all values; under fish's
quoting rules the sh-style escaper is exact only for values containing no
backslash, because fish interprets `\\` and `\'` inside single quotes. -/
theorem c9_env_line_quoting (b k : List Char) :
    renderEnvLines .bash b k =
      ["export CLAUDE_CONFIG_DIR=\"$HOME/.claude\"".data,
       "export ANTHROPIC_BASE_URL=".data ++ sh_single_quote b,
       "export ANTHROPIC_AUTH_TOKEN=".data ++ sh_single_quote k,
       "export API_TIMEOUT_MS=".data ++ sh_single_quote "3000000".data,
       "export CLAUDE_CODE_DISABLE_NONESSENTIAL_TRAFFIC=".data ++
         sh_single_quote "1".data] ∧
    renderEnvLines .zsh b k = renderEnvLines .bash b k ∧
    renderEnvLines .profile b k = renderEnvLines .bash b k ∧
    renderEnvLines .fish b k =
      ["set -gx CLAUDE_CONFIG_DIR \"$HOME/.claude\"".data,
       "set -gx ANTHROPIC_BASE_URL ".data ++ sh_single_quote b,
       "set -gx ANTHROPIC_AUTH_TOKEN ".data ++ sh_single_quote k,
       "set -gx API_TIMEOUT_MS ".data ++ sh_single_quote "3000000".data,
       "set -gx CLAUDE_CODE_DISABLE_NONESSENTIAL_TRAFFIC ".data ++
         sh_single_quote "1".data] ∧
    (∀ v, '\\' ∉ v → fishLexWord .top (sh_single_quote v) = some v) ∧
    renderEnvLines .powershell b k =
      ["$env:CLAUDE_CONFIG_DIR = (Join-Path $HOME \".claude\")".data,
       "$env:ANTHROPIC_BASE_URL = ".data ++ ps_single_quote b,
       "$env:ANTHROPIC_AUTH_TOKEN = ".data ++ ps_single_quote k,
       "$env:API_TIMEOUT_MS = ".data ++ ps_single_quote "3000000".data,
       "$env:CLAUDE_CODE_DISABLE_NONESSENTIAL_TRAFFIC = ".data ++
         ps_single_quote "1".data] ∧
    containsSub "\"$HOME/.claude\"".data
      "export CLAUDE_CONFIG_DIR=\"$HOME/.claude\"".data = true ∧
    containsSub "\"$HOME/.claude\"".data
      "set -gx CLAUDE_CONFIG_DIR \"$HOME/.claude\"".data = true ∧
    containsSub "$HOME".data
      "$env:CLAUDE_CONFIG_DIR = (Join-Path $HOME \".claude\")".data = true ∧
    containsSub "\".claude\"".data
      "$env:CLAUDE_CONFIG_DIR = (Join-Path $HOME \".claude\")".data = true ∧
    (∀ v, shLexWord .top (sh_single_quote v) = some v) ∧
    (∀ v, psLexWord false (ps_single_quote v) = some v) :=
  ⟨rfl, rfl, rfl, rfl, fishLexWord_sh_quote_no_backslash, rfl,
    by decide, by decide, by decide, by decide,
    shLexWord_single_quote, psLexWord_single_quote⟩

theorem c9_env_line_quoting_witness :
    ('\\' ∉ ("sk-abc".data : List Char)) ∧
    fishLexWord .top (sh_single_quote "sk-abc".data) = some "sk-abc".data :=
  ⟨by decide,
    (c9_env_line_quoting [] []).2.2.2.2.1 "sk-abc".data (by decide)⟩

/-- Claim C9 as stated is false for the fish dialect: the API key `x\`
is rendered as the word `'x\'`, which POSIX quoting reads back correctly,
but fish reads `\'` as an escaped quote, so the word never terminates —
the backslash is interpreted; likewise `x\\y` is rendered as `'x\\y'`,
which fish reads back as the different value `x\y`. -/
theorem c9_counterexample :
    sh_single_quote ['x', '\\'] = ['\'', 'x', '\\', '\''] ∧
    fishLexWord .top (sh_single_quote ['x', '\\']) = none ∧
    shLexWord .top (sh_single_quote ['x', '\\']) = some ['x', '\\'] ∧
    fishLexWord .top (sh_single_quote ['x', '\\', '\\', 'y']) = some ['x', '\\', 'y'] ∧
    (['x', '\\', 'y'] : List Char) ≠ ['x', '\\', '\\', 'y'] := by decide

example : updateContent "x".data ["L1".data] =
    some ("x\n\n".data ++ blockText ["L1".data]) := by decide
example :
    updateContent ("A\n".data ++ blockText ["old".data] ++ "B".data) ["new".data] =
    some ("A\n\n".data ++ blockText ["new".data] ++ "B".data) := by decide
example : sh_single_quote "a'b".data = "'a'\"'\"'b'".data := by decide
example : shLexWord .top (sh_single_quote "a'b $x".data) = some "a'b $x".data := by decide
example : psLexWord false (ps_single_quote "a'b".data) = some "a'b".data := by decide
example : escape_toml_string "a\\b\"c".data = "a\\\\b\\\"c".data := by decide
example : tomlUnescape (escape_toml_string "a\\b\"c".data) = some "a\\b\"c".data := by decide
example : normalize_base_url "https://example.com".data = "https://example.com/v1".data := by decide
example : normalize_base_url "https://example.com/v1///".data = "https://example.com/v1".data := by decide
example : (claude_get_api_config [] "abc".data "y".data).outcome =
    .ok ("https://api.anthropic.com".data, "abc".data) := rfl
example : renderEnvLines .bash "https://b".data "sk-k".data =
    ["export CLAUDE_CONFIG_DIR=\"$HOME/.claude\"".data,
     "export ANTHROPIC_BASE_URL='https://b'".data,
     "export ANTHROPIC_AUTH_TOKEN='sk-k'".data,
     "export API_TIMEOUT_MS='3000000'".data,
     "export CLAUDE_CODE_DISABLE_NONESSENTIAL_TRAFFIC='1'".data] := by decide
